import Mathlib

/-!
Verification of the PoreBlazer output parser (`src/PoreBlazerRun/__init__.py`).

File contents are modelled as `List Char`.  Python string operations used by
the source (`str.replace` with two-character patterns, `re.sub("( +)", " ")`,
`str.splitlines`, `str.strip`, `str.split(" ")`, `"\n".join`) are embedded as
executable functions below, each mirroring the left-to-right non-overlapping
semantics of the Python original.  `str.splitlines` is modelled for the LF,
CR and CRLF terminators (the exotic unicode terminators Python also accepts
are out of scope).  Numeric values are modelled exactly: Python `float`
literals as rationals (`inf`/`nan` and digit underscores out of scope),
Python `int` literals as `Int`, and the int/float distinction is kept as a
constructor tag.  Python dictionaries are modelled as association lists in
insertion order.  The filesystem directory is a record of optional file
contents, construction returns `none` where the Python constructor would
raise an uncaught exception.
-/

set_option maxHeartbeats 1000000

attribute [local semireducible] Rat.mul Rat.inv Rat.add Rat.sub

namespace PB

/-- Substring test for a two-character pattern, mirroring `"ab" in s`. -/
def hasPair (a b : Char) : List Char → Bool
  | [] => false
  | [_] => false
  | c :: y :: rest => (c == a && y == b) || hasPair a b (y :: rest)

/-- One pass of `str.replace("  ", " ")`: left-to-right, non-overlapping. -/
def dedouble : List Char → List Char
  | [] => []
  | [c] => [c]
  | c :: y :: rest =>
    if c = ' ' ∧ y = ' ' then ' ' :: dedouble rest
    else c :: dedouble (y :: rest)

/-- The `while` loop of `__clean_psds`: replace `"  "` by `" "` until no
double space remains. -/
def collapseLoop (s : List Char) : List Char :=
  if h : hasPair ' ' ' ' s = true then collapseLoop (dedouble s) else s
termination_by s.length
decreasing_by
  revert h
  induction s using dedouble.induct with
  | case1 => intro h; simp [hasPair] at h
  | case2 c => intro h; simp [hasPair] at h
  | case3 c y rest hif ih =>
    intro h
    have hle : (dedouble rest).length ≤ rest.length := by
      clear h ih
      induction rest using dedouble.induct with
      | case1 => simp [dedouble]
      | case2 c2 => simp [dedouble]
      | case3 c2 y2 r2 h2 ih2 =>
        simp only [dedouble, if_pos h2, List.length_cons]
        omega
      | case4 c2 y2 r2 h2 ih2 =>
        simp only [dedouble, if_neg h2, List.length_cons]
        simp only [List.length_cons] at ih2
        omega
    simp only [dedouble, if_pos hif, List.length_cons]
    omega
  | case4 c y rest hif ih =>
    intro h
    have hrest : hasPair ' ' ' ' (y :: rest) = true := by
      simp only [hasPair, Bool.or_eq_true, Bool.and_eq_true, beq_iff_eq] at h
      rcases h with ⟨h1, h2⟩ | h2
      · exact absurd ⟨h1, h2⟩ hif
      · exact h2
    have := ih hrest
    simp only [dedouble, if_neg hif, List.length_cons]
    simp only [List.length_cons] at this
    omega

/-- One pass of `str.replace("\n ", "\n")`. -/
def replNlSp : List Char → List Char
  | [] => []
  | [c] => [c]
  | c :: y :: rest =>
    if c = '\n' ∧ y = ' ' then '\n' :: replNlSp rest
    else c :: replNlSp (y :: rest)

/-- One pass of `str.replace(" \n", "\n")`. -/
def replSpNl : List Char → List Char
  | [] => []
  | [c] => [c]
  | c :: y :: rest =>
    if c = ' ' ∧ y = '\n' then '\n' :: replSpNl rest
    else c :: replSpNl (y :: rest)

/-- The whole `__clean_psds` rewrite of a file content: collapse double
spaces to exhaustion, then strip a space after each newline, then a space
before each newline (in source order). -/
def cleanPsds (s : List Char) : List Char :=
  replSpNl (replNlSp (collapseLoop s))

/-- Line terminators handled by the `str.splitlines` model: LF and CR
(CRLF is treated as a single terminator by `linesT`). -/
def isTerm (c : Char) : Bool := c == '\n' || c == '\r'

/-- Total version of `str.splitlines`: the list of lines, with one final
empty line when the text ends with a terminator (so the result is never
empty).  `splitLines` below drops that final empty line, giving Python
semantics. -/
def linesT : List Char → List (List Char)
  | [] => [[]]
  | [c] => if isTerm c then [[], []] else [[c]]
  | c :: y :: rest =>
    if c = '\r' ∧ y = '\n' then [] :: linesT rest
    else if isTerm c then [] :: linesT (y :: rest)
    else
      match linesT (y :: rest) with
      | [] => [[c]]
      | l :: ls => (c :: l) :: ls

/-- Python `str.splitlines`: like `linesT` but without a final empty line
when the text ends with a terminator (and `[]` on the empty string). -/
def splitLines (s : List Char) : List (List Char) :=
  if (linesT s).getLast? = some [] then (linesT s).dropLast else linesT s

/-- Python `"\n".join`. -/
def joinNL : List (List Char) → List Char
  | [] => []
  | [l] => l
  | l :: m :: ls => l ++ '\n' :: joinNL (m :: ls)

/-- Characters Python `str.strip` removes: the ASCII whitespace set. -/
def pyIsWs (c : Char) : Bool :=
  c == ' ' || c == '\t' || c == '\n' || c == '\x0b' || c == '\x0c' || c == '\r'

/-- Remove trailing whitespace (the right half of Python `str.strip`). -/
def rstrip : List Char → List Char
  | [] => []
  | c :: rest =>
    match rstrip rest with
    | [] => if pyIsWs c then [] else [c]
    | t :: ts => c :: t :: ts

/-- Python `str.strip()`. -/
def pyStrip (l : List Char) : List Char :=
  rstrip (l.dropWhile pyIsWs)

/-- Python `re.sub(r"( +)", r" ", s)`: collapse every maximal run of
spaces to a single space (a space is kept only when not followed by
another space, which yields the same string). -/
def collapseSpaces : List Char → List Char
  | [] => []
  | [c] => [c]
  | c :: y :: rest =>
    if c = ' ' ∧ y = ' ' then collapseSpaces (y :: rest)
    else c :: collapseSpaces (y :: rest)

/-- The `__clean_occup_vol` rewrite: `re.sub` space collapsing on the whole
text, then strip every line and rejoin with newlines. -/
def cleanOccup (s : List Char) : List Char :=
  joinNL ((splitLines (collapseSpaces s)).map pyStrip)

/-- Comma test used as the already-cleaned guard of `__clean_summary`. -/
def hasComma (l : List Char) : Bool := l.any (fun c => c == ',')

/-- One pass of `str.replace(" _", "_")`. -/
def replUnd : List Char → List Char
  | [] => []
  | [c] => [c]
  | c :: y :: rest =>
    if c = ' ' ∧ y = '_' then '_' :: replUnd rest
    else c :: replUnd (y :: rest)

/-- Python `str.replace(":", "")`: delete every colon. -/
def remColon (l : List Char) : List Char :=
  l.filter (fun c => !(c == ':'))

/-- Python `str.split(" ")`: split on every single space, keeping empty
fields; the result is never empty. -/
def splitSp : List Char → List (List Char)
  | [] => [[]]
  | c :: rest =>
    if c = ' ' then [] :: splitSp rest
    else
      match splitSp rest with
      | [] => [[c]]
      | t :: ts => (c :: t) :: ts

/-- Join with single spaces, the inverse of `splitSp`. -/
def joinSp : List (List Char) → List Char
  | [] => []
  | [t] => t
  | t :: u :: ts => t ++ ' ' :: joinSp (u :: ts)

/-- The `match len(splitted)` step of `__clean_summary` on one (already
stripped) line; the boolean records whether the `print("error")` branch
ran. -/
def branchLine (l : List Char) : List Char × Bool :=
  match splitSp l with
  | [_] => (l, false)
  | [a, b] => (a ++ ' ' :: b, false)
  | [a, b, c] => (a ++ '_' :: b ++ ' ' :: c, false)
  | _ => (l, true)

/-- The per-line treatment of `__clean_summary`: strip, then the token-count
branch. -/
def cleanSummaryLine (l : List Char) : List Char :=
  (branchLine (pyStrip l)).1

/-- The global text replacements of `__clean_summary` that run before the
line loop: `" _"` to `"_"`, remove colons, collapse space runs. -/
def summaryGlobal (text : List Char) : List Char :=
  collapseSpaces (remColon (replUnd text))

/-- The whole `__clean_summary` rewrite of a file content: no-op when a
comma is present, otherwise the global replacements followed by the
per-line loop, rejoined with newlines. -/
def cleanSummary (text : List Char) : List Char :=
  if hasComma text then text
  else joinNL (((splitLines (summaryGlobal text)).map cleanSummaryLine))

/-- Value of one summary field: Python `int(...)` or `float(...)` result.
The tag keeps Python's int/float type distinction. -/
inductive SummaryVal where
  | vint (z : ℤ)
  | vfloat (q : ℚ)
deriving DecidableEq, Repr

/-- Decimal digit string test (nonempty, digits only). -/
def decDigits (l : List Char) : Bool :=
  !l.isEmpty && l.all (fun c => c.isDigit)

/-- Numeric value of a digit string. -/
def digitsToNat (l : List Char) : Nat :=
  l.foldl (fun a c => 10 * a + (c.toNat - 48)) 0

/-- Python `int(s)` for base-10 literals: strip whitespace, optional sign,
digits (digit-group underscores are out of scope). -/
def pyInt (l : List Char) : Option ℤ :=
  match pyStrip l with
  | '+' :: ds => if decDigits ds then some ((digitsToNat ds : ℤ)) else none
  | '-' :: ds => if decDigits ds then some (-(digitsToNat ds : ℤ)) else none
  | ds => if decDigits ds then some ((digitsToNat ds : ℤ)) else none

/-- Unsigned decimal mantissa of a Python float literal:
`digits`, `digits.digits`, `digits.` or `.digits`, as an exact rational. -/
def parseUDec (m : List Char) : Option ℚ :=
  let ip := m.takeWhile (fun c => !(c == '.'))
  match m.dropWhile (fun c => !(c == '.')) with
  | [] => if decDigits ip then some ((digitsToNat ip : ℚ)) else none
  | _ :: fp =>
    if (!ip.isEmpty || !fp.isEmpty) && ip.all (fun c => c.isDigit)
        && fp.all (fun c => c.isDigit) then
      some ((digitsToNat ip : ℚ) + (digitsToNat fp : ℚ) / ((10 : ℚ) ^ fp.length))
    else none

/-- Signed decimal integer (the exponent part of a float literal). -/
def parseSig (l : List Char) : Option ℤ :=
  match l with
  | '+' :: ds => if decDigits ds then some ((digitsToNat ds : ℤ)) else none
  | '-' :: ds => if decDigits ds then some (-(digitsToNat ds : ℤ)) else none
  | ds => if decDigits ds then some ((digitsToNat ds : ℤ)) else none

/-- Python `float(s)` for finite decimal literals, as an exact rational:
strip whitespace, optional sign, mantissa, optional `e`/`E` exponent. -/
def pyFloatQ (l : List Char) : Option ℚ :=
  let s := pyStrip l
  let sgn : ℚ := match s with | '-' :: _ => -1 | _ => 1
  let body := match s with | '+' :: r => r | '-' :: r => r | r => r
  let mant := body.takeWhile (fun c => !(c == 'e' || c == 'E'))
  match body.dropWhile (fun c => !(c == 'e' || c == 'E')) with
  | [] => (parseUDec mant).map (fun q => sgn * q)
  | _ :: ex => do
    let q ← parseUDec mant
    let z ← parseSig ex
    some (sgn * q * (10 : ℚ) ^ z)

/-- The two-token access `line.split(" ")[0]`, `line.split(" ")[1]` of
`__parse_summary`; `none` models the uncaught `IndexError` when the line
has fewer than two fields. -/
def parseKV (l : List Char) : Option (List Char × List Char) :=
  match splitSp l with
  | a :: b :: _ => some (a, b)
  | _ => none

/-- The `general_params` comprehension of `__parse_summary`: local index
from 0, value `int` at local index 5, `float` elsewhere. -/
def srcEntriesG : Nat → List (List Char) → Option (List (List Char × SummaryVal))
  | _, [] => some []
  | i, l :: ls => do
    let kv ← parseKV l
    let v ← if i = 5 then (pyInt kv.2).map SummaryVal.vint
            else (pyFloatQ kv.2).map SummaryVal.vfloat
    let rest ← srcEntriesG (i + 1) ls
    some ((kv.1, v) :: rest)

/-- The `total_params` / `network_params` comprehensions of
`__parse_summary`: local index from 0, the line at local index 3 excluded,
all values `float`. -/
def srcEntriesTN : Nat → List (List Char) → Option (List (List Char × SummaryVal))
  | _, [] => some []
  | i, l :: ls =>
    if i = 3 then srcEntriesTN (i + 1) ls
    else do
      let kv ← parseKV l
      let v ← (pyFloatQ kv.2).map SummaryVal.vfloat
      let rest ← srcEntriesTN (i + 1) ls
      some ((kv.1, v) :: rest)

/-- Modelled from the spec wording of the summary schema: entries indexed
by ABSOLUTE line number, with the integer-valued field at absolute line 6.
Used as the spec side of the refinement claim C1. -/
def specEntriesG : Nat → List (List Char) → Option (List (List Char × SummaryVal))
  | _, [] => some []
  | n, l :: ls => do
    let kv ← parseKV l
    let v ← if n = 6 then (pyInt kv.2).map SummaryVal.vint
            else (pyFloatQ kv.2).map SummaryVal.vfloat
    let rest ← specEntriesG (n + 1) ls
    some ((kv.1, v) :: rest)

/-- Modelled from the spec wording of the summary schema: float entries
indexed by ABSOLUTE line number with one designated absolute line skipped
(11 for `total_output`, 23 for `network_accessible_output`).  Used as the
spec side of the refinement claim C1. -/
def specEntriesTN (skipAbs : Nat) : Nat → List (List Char) → Option (List (List Char × SummaryVal))
  | _, [] => some []
  | n, l :: ls =>
    if n = skipAbs then specEntriesTN skipAbs (n + 1) ls
    else do
      let kv ← parseKV l
      let v ← (pyFloatQ kv.2).map SummaryVal.vfloat
      let rest ← specEntriesTN skipAbs (n + 1) ls
      some ((kv.1, v) :: rest)

/-- The three sub-dictionaries built by `__parse_summary` (association
lists in iteration order). -/
structure SummaryData where
  general : List (List Char × SummaryVal)
  total : List (List Char × SummaryVal)
  network : List (List Char × SummaryVal)
deriving DecidableEq, Repr

/-- The `__parse_summary` routine on a summary file content: line 0 is the
input file name, lines[1:7] build `general_output`, lines[8:19] build
`total_output`, lines[20:] build `network_accessible_output`; `none`
models an uncaught exception. -/
def parseSummary (content : List Char) : Option (List Char × SummaryData) :=
  let lines := splitLines content
  match lines with
  | [] => none
  | name :: rest => do
    let g ← srcEntriesG 0 (rest.take 6)
    let t ← srcEntriesTN 0 ((lines.drop 8).take 11)
    let n ← srcEntriesTN 0 (lines.drop 20)
    some (name, ⟨g, t, n⟩)

/-- Modelled from the spec wording: the fixed line-index schema with
absolute line numbers (name from line 0; general from absolute lines 1-6
with an integer at line 6; totals from absolute lines 8-18 skipping 11;
network from absolute lines 20 onward skipping 23). -/
def specParseSummary (content : List Char) : Option (List Char × SummaryData) :=
  let lines := splitLines content
  match lines with
  | [] => none
  | name :: rest => do
    let g ← specEntriesG 1 (rest.take 6)
    let t ← specEntriesTN 11 8 ((lines.drop 8).take 11)
    let n ← specEntriesTN 23 20 (lines.drop 20)
    some (name, ⟨g, t, n⟩)

/-- A row of the joined PSD table: diameter plus the two value columns,
each `none` when the row is unmatched on that side. -/
structure PsdRow where
  d : ℚ
  volFrac : Option ℚ
  deriv : Option ℚ
deriving DecidableEq, Repr

/-- Model of `pl.read_csv(..., separator=" ", has_header=False,
skip_lines=k)` with two float columns: drop the first `k` lines, ignore
blank lines, each remaining line must split into exactly two float
fields. -/
def readTab (skip : Nat) (content : List Char) : Option (List (ℚ × ℚ)) :=
  let rows := ((splitLines content).drop skip).filter (fun l => !l.isEmpty)
  rows.foldr (fun l acc => do
    let row ← match splitSp l with
      | [a, b] => do
        let x ← pyFloatQ a
        let y ← pyFloatQ b
        some (x, y)
      | _ => none
    let rest ← acc
    some (row :: rest)) (some [])

/-- Polars `join(..., on="d", how="full", coalesce=True)` on the two PSD
tables: matched pairs, then left rows with no match (null derivative),
then right rows with no match (null volume fraction). -/
def fullJoin (cum der : List (ℚ × ℚ)) : List PsdRow :=
  (cum.flatMap (fun p =>
    if (der.filter (fun q => q.1 == p.1)).isEmpty then [⟨p.1, some p.2, none⟩]
    else (der.filter (fun q => q.1 == p.1)).map
      (fun q => ⟨p.1, some p.2, some q.2⟩)))
  ++ (der.filter (fun q => !(cum.any (fun p => p.1 == q.1)))).map
      (fun q => ⟨q.1, none, some q.2⟩)

/-- The `__parse_psds` routine: read the cumulative table (skip 3 lines)
and the non-cumulative table (skip 1 line), then full-outer-join on `d`. -/
def parsePsds (cumContent derContent : List Char) : Option (List PsdRow) := do
  let cum ← readTab 3 cumContent
  let der ← readTab 1 derContent
  some (fullJoin cum der)

/-- A row of the occupied-volume table. -/
structure OccupRow where
  particle : List Char
  x : ℚ
  y : ℚ
  z : ℚ
deriving DecidableEq, Repr

/-- The `__parse_occup_vol` read: skip 2 lines, ignore blank lines, each
remaining line must split into a text field and three float fields. -/
def readOccup (content : List Char) : Option (List OccupRow) :=
  let rows := ((splitLines content).drop 2).filter (fun l => !l.isEmpty)
  rows.foldr (fun l acc => do
    let row ← match splitSp l with
      | [p, a, b, c] => do
        let xv ← pyFloatQ a
        let yv ← pyFloatQ b
        let zv ← pyFloatQ c
        some (OccupRow.mk p xv yv zv)
      | _ => none
    let rest ← acc
    some (row :: rest)) (some [])

/-- The output directory: optional content for each of the eight
registered filenames (a key is registered exactly when its content is
`some`). -/
structure Dir where
  psd_cum : Option (List Char)
  psd : Option (List Char)
  summary : Option (List Char)
  occup_vol : Option (List Char)
  na_psd_cum : Option (List Char)
  na_psd : Option (List Char)
  n_net_xyz : Option (List Char)
  n_net_grd : Option (List Char)
deriving DecidableEq

/-- The directory with no registered file. -/
def emptyDir : Dir := ⟨none, none, none, none, none, none, none, none⟩

/-- The result object: its four public attributes after construction.
`summary = none` models the initial empty dict `{}`. -/
structure RunResult where
  psd : List PsdRow
  occup_vol : List OccupRow
  summary : Option SummaryData
  input_file_name : List Char
deriving DecidableEq

/-- The freshly initialized attributes (empty tables, empty dict, empty
name). -/
def emptyResult : RunResult := ⟨[], [], none, []⟩

/-- The `clean()` phase: rewrite each of the four cleanable files in place
when present (the other four registered files are never touched). -/
def cleanPhase (d : Dir) : Dir :=
  { d with
    psd_cum := d.psd_cum.map cleanPsds
    psd := d.psd.map cleanPsds
    summary := d.summary.map cleanSummary
    occup_vol := d.occup_vol.map cleanOccup }

/-- The parsing phase of `__init__`: PSD only when BOTH psd files are
present, summary and occupied volume each when present; `none` models an
uncaught parse exception. -/
def parsePhase (d : Dir) : Option RunResult := do
  let psdT ← match d.psd_cum, d.psd with
    | some c1, some c2 => parsePsds c1 c2
    | _, _ => some []
  let sumR ← match d.summary with
    | some c => (parseSummary c).map some
    | none => some none
  let occT ← match d.occup_vol with
    | some c => readOccup c
    | none => some []
  some ⟨psdT, occT, sumR.map (fun p => p.2),
    match sumR with | some p => p.1 | none => []⟩

/-- The whole constructor: optional cleaning phase (rewriting files on
disk), then parsing from the resulting directory.  Returns the parse
outcome and the final on-disk state. -/
def construct (d : Dir) (clean : Bool) : Option RunResult × Dir :=
  let dAfter := if clean then cleanPhase d else d
  (parsePhase dAfter, dAfter)

theorem hasPair_cons (a b c : Char) (rest : List Char) :
    hasPair a b (c :: rest) =
      ((c == a && rest.head? == some b) || hasPair a b rest) := by
  cases rest <;> simp [hasPair]

theorem hasPair_cons_false {a b x : Char} {r : List Char}
    (h : hasPair a b (x :: r) = false) : hasPair a b r = false := by
  rw [hasPair_cons] at h
  exact (Bool.or_eq_false_iff.mp h).2

theorem collapseLoop_no_dd (s : List Char) :
    hasPair ' ' ' ' (collapseLoop s) = false := by
  induction s using collapseLoop.induct with
  | case1 s hc ih => rw [collapseLoop, dif_pos hc]; exact ih
  | case2 s hc => rw [collapseLoop, dif_neg hc]; exact Bool.not_eq_true _ |>.mp hc

theorem collapseLoop_of_no_dd {s : List Char} (h : hasPair ' ' ' ' s = false) :
    collapseLoop s = s := by
  rw [collapseLoop, dif_neg (by simp [h])]

/-- `replNlSp` keeps the head character. -/
theorem replNlSp_head (s : List Char) : (replNlSp s).head? = s.head? := by
  induction s using replNlSp.induct with
  | case1 => rfl
  | case2 c => rfl
  | case3 c y rest h ih => simp [replNlSp, h.1, h.2]
  | case4 c y rest h ih => simp [replNlSp, if_neg h]

/-- After `replNlSp` on a text without double spaces, there is no double
space and no newline-space pair left. -/
theorem replNlSp_clean {s : List Char} (h : hasPair ' ' ' ' s = false) :
    hasPair ' ' ' ' (replNlSp s) = false ∧
      hasPair '\n' ' ' (replNlSp s) = false := by
  induction s using replNlSp.induct with
  | case1 => simp [replNlSp, hasPair]
  | case2 c => simp [replNlSp, hasPair]
  | case3 c y rest hif ih =>
    have hdd : hasPair ' ' ' ' (y :: rest) = false := hasPair_cons_false h
    have hddr : hasPair ' ' ' ' rest = false := hasPair_cons_false hdd
    have hhead : ¬ rest.head? = some ' ' := by
      rw [hasPair_cons] at hdd
      have := (Bool.or_eq_false_iff.mp hdd).1
      simp [hif.2] at this
      simp [this]
    obtain ⟨ih1, ih2⟩ := ih hddr
    rw [replNlSp, if_pos hif]
    constructor
    · rw [hasPair_cons]
      simp [ih1]
    · rw [hasPair_cons]
      rw [replNlSp_head rest]
      simp only [Bool.or_eq_false_iff, Bool.and_eq_false_iff]
      exact ⟨Or.inr (by simpa using hhead), ih2⟩
  | case4 c y rest hif ih =>
    have h2 : hasPair ' ' ' ' (y :: rest) = false := hasPair_cons_false h
    have hcy : ¬ (c = ' ' ∧ y = ' ') := by
      rw [hasPair_cons] at h
      have := (Bool.or_eq_false_iff.mp h).1
      intro hcon
      simp [hcon.1, hcon.2] at this
    obtain ⟨ih1, ih2⟩ := ih h2
    have hhd : (replNlSp (y :: rest)).head? = some y := by
      rw [replNlSp_head]; rfl
    rw [replNlSp, if_neg hif]
    constructor
    · rw [hasPair_cons, hhd]
      simp only [Bool.or_eq_false_iff, Bool.and_eq_false_iff]
      refine ⟨?_, ih1⟩
      by_cases hc : c = ' '
      · right
        have : ¬ y = ' ' := fun hy => hcy ⟨hc, hy⟩
        simp [this]
      · left; simp [hc]
    · rw [hasPair_cons, hhd]
      simp only [Bool.or_eq_false_iff, Bool.and_eq_false_iff]
      refine ⟨?_, ih2⟩
      by_cases hc : c = '\n'
      · right
        have : ¬ y = ' ' := fun hy => hif ⟨hc, hy⟩
        simp [this]
      · left; simp [hc]

/-- `replSpNl` keeps the head character, except that a head space followed
by a newline becomes a newline. -/
theorem replSpNl_head (s : List Char) :
    (replSpNl s).head? = s.head? ∨
      (s.head? = some ' ' ∧ (replSpNl s).head? = some '\n') := by
  induction s using replSpNl.induct with
  | case1 => left; rfl
  | case2 c => left; rfl
  | case3 c y rest h ih => right; rw [replSpNl, if_pos h]; simp [h.1]
  | case4 c y rest h ih => left; rw [replSpNl, if_neg h]; rfl

/-- After `replSpNl` on a text with no double space and no newline-space
pair, none of the three patterns remains. -/
theorem replSpNl_clean {s : List Char} (h1 : hasPair ' ' ' ' s = false)
    (h2 : hasPair '\n' ' ' s = false) :
    hasPair ' ' ' ' (replSpNl s) = false ∧
      hasPair '\n' ' ' (replSpNl s) = false ∧
      hasPair ' ' '\n' (replSpNl s) = false := by
  induction s using replSpNl.induct with
  | case1 => simp [replSpNl, hasPair]
  | case2 c => simp [replSpNl, hasPair]
  | case3 c y rest hif ih =>
    have h1t : hasPair ' ' ' ' rest = false :=
      hasPair_cons_false (hasPair_cons_false h1)
    have h2t : hasPair '\n' ' ' rest = false :=
      hasPair_cons_false (hasPair_cons_false h2)
    have hhead : ¬ rest.head? = some ' ' := by
      have h2y : hasPair '\n' ' ' (y :: rest) = false := hasPair_cons_false h2
      rw [hasPair_cons] at h2y
      have := (Bool.or_eq_false_iff.mp h2y).1
      simp [hif.2] at this
      simp [this]
    obtain ⟨ih1, ih2, ih3⟩ := ih h1t h2t
    have hou : ¬ (replSpNl rest).head? = some ' ' := by
      rcases replSpNl_head rest with hh | hh
      · rw [hh]; exact hhead
      · rw [hh.2]; simp
    rw [replSpNl, if_pos hif]
    refine ⟨?_, ?_, ?_⟩
    · rw [hasPair_cons]
      simp [ih1]
    · rw [hasPair_cons]
      simp only [Bool.or_eq_false_iff, Bool.and_eq_false_iff]
      exact ⟨Or.inr (by simpa using hou), ih2⟩
    · rw [hasPair_cons]
      simp [ih3]
  | case4 c y rest hif ih =>
    have h1t : hasPair ' ' ' ' (y :: rest) = false := hasPair_cons_false h1
    have h2t : hasPair '\n' ' ' (y :: rest) = false := hasPair_cons_false h2
    have hdd : ¬ (c = ' ' ∧ y = ' ') := by
      rw [hasPair_cons] at h1
      have := (Bool.or_eq_false_iff.mp h1).1
      intro hcon
      simp [hcon.1, hcon.2] at this
    have hns : ¬ (c = '\n' ∧ y = ' ') := by
      rw [hasPair_cons] at h2
      have := (Bool.or_eq_false_iff.mp h2).1
      intro hcon
      simp [hcon.1, hcon.2] at this
    obtain ⟨ih1, ih2, ih3⟩ := ih h1t h2t
    rw [replSpNl, if_neg hif]
    refine ⟨?_, ?_, ?_⟩
    · rw [hasPair_cons]
      simp only [Bool.or_eq_false_iff, Bool.and_eq_false_iff]
      refine ⟨?_, ih1⟩
      by_cases hc : c = ' '
      · right
        rcases replSpNl_head (y :: rest) with hh | hh
        · rw [hh]
          have : ¬ y = ' ' := fun hy => hdd ⟨hc, hy⟩
          simp [this]
        · rw [hh.2]; simp
      · left; simp [hc]
    · rw [hasPair_cons]
      simp only [Bool.or_eq_false_iff, Bool.and_eq_false_iff]
      refine ⟨?_, ih2⟩
      by_cases hc : c = '\n'
      · right
        rcases replSpNl_head (y :: rest) with hh | hh
        · rw [hh]
          have : ¬ y = ' ' := fun hy => hns ⟨hc, hy⟩
          simp [this]
        · rw [hh.2]; simp
      · left; simp [hc]
    · rw [hasPair_cons]
      simp only [Bool.or_eq_false_iff, Bool.and_eq_false_iff]
      refine ⟨?_, ih3⟩
      by_cases hc : c = ' '
      · right
        rcases replSpNl_head (y :: rest) with hh | hh
        · rw [hh]
          have : ¬ y = '\n' := fun hy => hif ⟨hc, hy⟩
          simp [this]
        · have hy : y = ' ' := by simpa using hh.1
          exact absurd ⟨hc, hy⟩ hdd
      · left; simp [hc]

/-- If no newline-space pair occurs, `replNlSp` is the identity. -/
theorem replNlSp_fix {s : List Char} (h : hasPair '\n' ' ' s = false) :
    replNlSp s = s := by
  induction s using replNlSp.induct with
  | case1 => rfl
  | case2 c => rfl
  | case3 c y rest hif ih =>
    rw [hasPair_cons] at h
    have := (Bool.or_eq_false_iff.mp h).1
    simp [hif.1, hif.2] at this
  | case4 c y rest hif ih =>
    rw [replNlSp, if_neg hif, ih (hasPair_cons_false h)]

/-- If no space-newline pair occurs, `replSpNl` is the identity. -/
theorem replSpNl_fix {s : List Char} (h : hasPair ' ' '\n' s = false) :
    replSpNl s = s := by
  induction s using replSpNl.induct with
  | case1 => rfl
  | case2 c => rfl
  | case3 c y rest hif ih =>
    rw [hasPair_cons] at h
    have := (Bool.or_eq_false_iff.mp h).1
    simp [hif.1, hif.2] at this
  | case4 c y rest hif ih =>
    rw [replSpNl, if_neg hif, ih (hasPair_cons_false h)]

/-- The PSD cleaning rewrite is idempotent. -/
theorem cleanPsds_idem (s : List Char) : cleanPsds (cleanPsds s) = cleanPsds s := by
  unfold cleanPsds
  have h0 : hasPair ' ' ' ' (collapseLoop s) = false := collapseLoop_no_dd s
  obtain ⟨h1, h2⟩ := replNlSp_clean h0
  obtain ⟨g1, g2, g3⟩ := replSpNl_clean h1 h2
  rw [collapseLoop_of_no_dd g1, replNlSp_fix g2, replSpNl_fix g3]

theorem linesT_ne_nil (s : List Char) : linesT s ≠ [] := by
  induction s using linesT.induct with
  | case1 => simp [linesT]
  | case2 c hc => simp [linesT, hc]
  | case3 c hc => simp [linesT, hc]
  | case4 c y rest hif ih => simp [linesT, hif]
  | case5 c y rest hif hc ih => simp only [linesT, if_neg hif, if_pos hc]; simp
  | case6 c y rest hif hc hnil ih => exact absurd hnil ih
  | case7 c y rest hif hc l ls hls ih =>
    simp only [linesT, if_neg hif, if_neg hc, hls]
    simp

theorem linesT_crlf (rest : List Char) :
    linesT ('\r' :: '\n' :: rest) = [] :: linesT rest := by
  simp [linesT]

theorem linesT_cons_term {c : Char} {s : List Char} (hc : isTerm c = true)
    (hcr : ¬ (c = '\r' ∧ s.head? = some '\n')) :
    linesT (c :: s) = [] :: linesT s := by
  cases s with
  | nil =>
    simp [linesT, hc]
  | cons y t =>
    have hne : ¬ (c = '\r' ∧ y = '\n') := by
      intro hcon
      exact hcr ⟨hcon.1, by simp [hcon.2]⟩
    simp only [linesT, if_neg hne, if_pos hc]

theorem linesT_cons_char {c : Char} {s : List Char} {l : List Char}
    {ls : List (List Char)} (hc : isTerm c = false) (hs : linesT s = l :: ls) :
    linesT (c :: s) = (c :: l) :: ls := by
  cases s with
  | nil =>
    simp only [linesT] at hs
    simp only [linesT, hc, Bool.false_eq_true, if_false]
    obtain ⟨h1, h2⟩ := List.cons.injEq .. ▸ hs
    · simp only [List.cons.injEq] at hs
      rw [← hs.1, ← hs.2]
  | cons y t =>
    have hne : ¬ (c = '\r' ∧ y = '\n') := by
      intro hcon
      rw [hcon.1] at hc
      simp [isTerm] at hc
    have hct : ¬ isTerm c = true := by simp [hc]
    simp only [linesT, if_neg hne, if_neg hct, hs]

/-- The first line of `y :: rest` is empty when `y` is a terminator and
starts with `y` otherwise. -/
theorem linesT_first_head {y : Char} {rest l : List Char} {ls : List (List Char)}
    (h : linesT (y :: rest) = l :: ls) :
    l.head? = if isTerm y then none else some y := by
  by_cases hy : isTerm y = true
  · by_cases hcr : y = '\r' ∧ rest.head? = some '\n'
    · obtain ⟨hy1, hy2⟩ := hcr
      cases rest with
      | nil => simp at hy2
      | cons z t =>
        have hz : z = '\n' := by simpa using hy2
        rw [hy1, hz, linesT_crlf] at h
        simp only [List.cons.injEq] at h
        rw [← h.1]
        simp [hy]
    · rw [linesT_cons_term hy hcr] at h
      simp only [List.cons.injEq] at h
      rw [← h.1]
      simp [hy]
  · obtain ⟨l2, ls2, hrest⟩ : ∃ l2 ls2, linesT rest = l2 :: ls2 := by
      cases hr : linesT rest with
      | nil => exact absurd hr (linesT_ne_nil rest)
      | cons a b => exact ⟨a, b, rfl⟩
    rw [linesT_cons_char (by simpa using hy) hrest] at h
    simp only [List.cons.injEq] at h
    rw [← h.1]
    simp [hy]

theorem collapseSpaces_cons_skip {c : Char} {s : List Char} (hc : c = ' ')
    (hs : s.head? = some ' ') : collapseSpaces (c :: s) = collapseSpaces s := by
  cases s with
  | nil => simp at hs
  | cons y t =>
    have hy : y = ' ' := by simpa using hs
    simp [collapseSpaces, hc, hy]

theorem collapseSpaces_cons_keep {c : Char} {s : List Char}
    (h : ¬ (c = ' ' ∧ s.head? = some ' ')) :
    collapseSpaces (c :: s) = c :: collapseSpaces s := by
  cases s with
  | nil => rfl
  | cons y t =>
    have hne : ¬ (c = ' ' ∧ y = ' ') := by
      intro hcon
      exact h ⟨hcon.1, by simp [hcon.2]⟩
    simp [collapseSpaces, hne]

theorem collapseSpaces_head (s : List Char) :
    (collapseSpaces s).head? = s.head? := by
  induction s using collapseSpaces.induct with
  | case1 => rfl
  | case2 c => rfl
  | case3 c y rest hif ih =>
    rw [collapseSpaces_cons_skip hif.1 (by simp [hif.2]), ih]
    simp [hif.1, hif.2]
  | case4 c y rest hif ih =>
    rw [collapseSpaces_cons_keep (by
      intro hcon
      exact hif ⟨hcon.1, by simpa using hcon.2⟩)]
    simp

theorem collapseSpaces_eq_nil {s : List Char} (h : collapseSpaces s = []) :
    s = [] := by
  have := collapseSpaces_head s
  rw [h] at this
  cases s with
  | nil => rfl
  | cons c t => simp at this

/-- Space collapsing commutes with line splitting (it never touches a
terminator and never removes the first character of a space run). -/
theorem linesT_collapse (s : List Char) :
    linesT (collapseSpaces s) = (linesT s).map collapseSpaces := by
  induction s using collapseSpaces.induct with
  | case1 => simp [linesT, collapseSpaces]
  | case2 c =>
    by_cases hc : isTerm c = true
    · simp [linesT, collapseSpaces, hc]
    · simp [linesT, collapseSpaces, hc]
  | case3 c y rest hif ih =>
    obtain ⟨l, ls, hls⟩ : ∃ l ls, linesT (y :: rest) = l :: ls := by
      cases hr : linesT (y :: rest) with
      | nil => exact absurd hr (linesT_ne_nil _)
      | cons a b => exact ⟨a, b, rfl⟩
    have hy : isTerm y = false := by simp [isTerm, hif.2]
    have hlh : l.head? = some y := by
      rw [linesT_first_head hls, if_neg (by simp [hy])]
    rw [collapseSpaces_cons_skip hif.1 (by simp [hif.2]), ih,
      linesT_cons_char (by simp [isTerm, hif.1]) hls, hls]
    simp only [List.map_cons]
    rw [collapseSpaces_cons_skip hif.1 (by rw [hlh, hif.2])]
  | case4 c y rest hif ih =>
    have hkeep : collapseSpaces (c :: y :: rest) = c :: collapseSpaces (y :: rest) := by
      apply collapseSpaces_cons_keep
      intro hcon
      exact hif ⟨hcon.1, by simpa using hcon.2⟩
    rw [hkeep]
    by_cases hcr : c = '\r' ∧ y = '\n'
    · obtain ⟨hc1, hc2⟩ := hcr
      have hyk : collapseSpaces (y :: rest) = y :: collapseSpaces rest := by
        apply collapseSpaces_cons_keep
        intro hcon
        rw [hc2] at hcon
        simp at hcon
      subst hc1
      subst hc2
      rw [hyk] at ih ⊢
      rw [linesT_crlf, linesT_crlf, List.map_cons]
      rw [linesT_cons_term (by simp [isTerm]) (by simp),
        linesT_cons_term (by simp [isTerm]) (by simp)] at ih
      simp only [List.map_cons, List.cons.injEq] at ih
      rw [ih.2]
      rfl
    · by_cases hc : isTerm c = true
      · have hl : linesT (c :: collapseSpaces (y :: rest)) =
            [] :: linesT (collapseSpaces (y :: rest)) := by
          apply linesT_cons_term hc
          intro hcon
          rw [collapseSpaces_head] at hcon
          exact hcr ⟨hcon.1, by simpa using hcon.2⟩
        have hr : linesT (c :: y :: rest) = [] :: linesT (y :: rest) := by
          apply linesT_cons_term hc
          intro hcon
          exact hcr ⟨hcon.1, by simpa using hcon.2⟩
        rw [hl, hr, ih]
        rfl
      · obtain ⟨l, ls, hls⟩ : ∃ l ls, linesT (y :: rest) = l :: ls := by
          cases hr : linesT (y :: rest) with
          | nil => exact absurd hr (linesT_ne_nil _)
          | cons a b => exact ⟨a, b, rfl⟩
        have hcf : isTerm c = false := by simpa using hc
        have hcoll : linesT (collapseSpaces (y :: rest)) =
            collapseSpaces l :: List.map collapseSpaces ls := by
          rw [ih, hls, List.map_cons]
        rw [linesT_cons_char hcf hcoll, linesT_cons_char hcf hls,
          List.map_cons]
        have : collapseSpaces (c :: l) = c :: collapseSpaces l := by
          apply collapseSpaces_cons_keep
          intro hcon
          rw [linesT_first_head hls] at hcon
          by_cases hy : isTerm y = true
          · rw [if_pos hy] at hcon
            simp at hcon
          · rw [if_neg hy] at hcon
            have hys : y = ' ' := by simpa using hcon.2
            exact hif ⟨hcon.1, hys⟩
        rw [this]

/-- Line splitting commutes with space collapsing. -/
theorem splitLines_collapse (s : List Char) :
    splitLines (collapseSpaces s) = (splitLines s).map collapseSpaces := by
  unfold splitLines
  rw [linesT_collapse, List.getLast?_map]
  by_cases h : (linesT s).getLast? = some []
  · rw [if_pos h, if_pos (by rw [h]; rfl)]
    rw [← List.map_dropLast]
  · rw [if_neg h, if_neg (by
      intro hcon
      cases hlast : (linesT s).getLast? with
      | none => rw [hlast] at hcon; simp at hcon
      | some x =>
        rw [hlast] at hcon
        simp only [Option.map_some', Option.some.injEq] at hcon
        rw [collapseSpaces_eq_nil hcon] at hlast
        exact h hlast)]

theorem linesT_noTerm (s : List Char) :
    ∀ l ∈ linesT s, ∀ c ∈ l, isTerm c = false := by
  induction s using linesT.induct with
  | case1 => simp [linesT]
  | case2 c hc => simp [linesT, hc]
  | case3 c hc =>
    simp only [linesT, Bool.not_eq_true] at hc ⊢
    rw [if_neg (by simp [hc])]
    intro l hl d hd
    simp only [List.mem_singleton] at hl
    rw [hl] at hd
    simp only [List.mem_singleton] at hd
    rw [hd]
    exact hc
  | case4 c y rest hif ih =>
    rw [hif.1, hif.2, linesT_crlf]
    intro l hl d hd
    rcases List.mem_cons.mp hl with h | h
    · rw [h] at hd; simp at hd
    · exact ih l h d hd
  | case5 c y rest hif hc ih =>
    rw [linesT_cons_term hc (by
      intro hcon
      exact hif ⟨hcon.1, by simpa using hcon.2⟩)]
    intro l hl d hd
    rcases List.mem_cons.mp hl with h | h
    · rw [h] at hd; simp at hd
    · exact ih l h d hd
  | case6 c y rest hif hc hnil ih => exact absurd hnil (linesT_ne_nil _)
  | case7 c y rest hif hc l ls hls ih =>
    rw [linesT_cons_char (by simpa using hc) hls]
    intro l2 hl2 d hd
    rcases List.mem_cons.mp hl2 with h | h
    · rw [h] at hd
      rcases List.mem_cons.mp hd with h2 | h2
      · rw [h2]; simpa using hc
      · exact ih l (by rw [hls]; exact List.mem_cons_self l ls) d h2
    · exact ih l2 (by rw [hls]; exact List.mem_cons_of_mem l h) d hd

theorem splitLines_noTerm (s : List Char) :
    ∀ l ∈ splitLines s, ∀ c ∈ l, isTerm c = false := by
  intro l hl
  apply linesT_noTerm s
  unfold splitLines at hl
  by_cases h : (linesT s).getLast? = some []
  · rw [if_pos h] at hl
    exact (List.dropLast_sublist (linesT s)).subset hl
  · rw [if_neg h] at hl
    exact hl

theorem linesT_single {l : List Char} (h : ∀ c ∈ l, isTerm c = false) :
    linesT l = [l] := by
  induction l with
  | nil => rfl
  | cons c rest ih =>
    have hc : isTerm c = false := h c (List.mem_cons_self c rest)
    have hrest : linesT rest = [rest] :=
      ih (fun d hd => h d (List.mem_cons_of_mem c hd))
    rw [linesT_cons_char hc hrest]

theorem linesT_append_nl {a : List Char} (b : List Char)
    (h : ∀ c ∈ a, isTerm c = false) :
    linesT (a ++ '\n' :: b) = a :: linesT b := by
  induction a with
  | nil =>
    simp only [List.nil_append]
    exact linesT_cons_term (by simp [isTerm]) (by simp)
  | cons c a2 ih =>
    have hc : isTerm c = false := h c (List.mem_cons_self c a2)
    have ha2 := ih (fun d hd => h d (List.mem_cons_of_mem c hd))
    rw [List.cons_append, linesT_cons_char hc ha2]

theorem linesT_joinNL {ls : List (List Char)} (hne : ls ≠ [])
    (h : ∀ l ∈ ls, ∀ c ∈ l, isTerm c = false) : linesT (joinNL ls) = ls := by
  induction ls using joinNL.induct with
  | case1 => exact absurd rfl hne
  | case2 l => exact linesT_single (h l (List.mem_singleton_self l))
  | case3 l m ls2 ih =>
    rw [joinNL, linesT_append_nl _ (h l (List.mem_cons_self _ _)),
      ih (by simp) (fun x hx => h x (List.mem_cons_of_mem l hx))]

theorem splitLines_joinNL {ls : List (List Char)}
    (h : ∀ l ∈ ls, ∀ c ∈ l, isTerm c = false)
    (hlast : ls.getLast? ≠ some []) : splitLines (joinNL ls) = ls := by
  cases ls with
  | nil => rfl
  | cons l ls2 =>
    unfold splitLines
    rw [linesT_joinNL (by simp) h, if_neg hlast]

theorem collapseSpaces_no_dd (s : List Char) :
    hasPair ' ' ' ' (collapseSpaces s) = false := by
  induction s using collapseSpaces.induct with
  | case1 => rfl
  | case2 c => rfl
  | case3 c y rest hif ih =>
    rw [collapseSpaces_cons_skip hif.1 (by simp [hif.2])]
    exact ih
  | case4 c y rest hif ih =>
    rw [collapseSpaces_cons_keep (by
      intro hcon
      exact hif ⟨hcon.1, by simpa using hcon.2⟩)]
    rw [hasPair_cons, collapseSpaces_head]
    simp only [Bool.or_eq_false_iff, Bool.and_eq_false_iff]
    refine ⟨?_, ih⟩
    by_cases hc : c = ' '
    · right
      have hy : ¬ y = ' ' := fun hy => hif ⟨hc, hy⟩
      simp [hy]
    · left; simp [hc]

theorem collapseSpaces_fix {s : List Char} (h : hasPair ' ' ' ' s = false) :
    collapseSpaces s = s := by
  induction s using collapseSpaces.induct with
  | case1 => rfl
  | case2 c => rfl
  | case3 c y rest hif ih =>
    rw [hasPair_cons] at h
    have := (Bool.or_eq_false_iff.mp h).1
    simp [hif.1, hif.2] at this
  | case4 c y rest hif ih =>
    rw [collapseSpaces_cons_keep (by
      intro hcon
      exact hif ⟨hcon.1, by simpa using hcon.2⟩)]
    rw [ih (hasPair_cons_false h)]

theorem hasPair_dropWhile {a b : Char} (p : Char → Bool) {l : List Char}
    (h : hasPair a b l = false) : hasPair a b (l.dropWhile p) = false := by
  induction l with
  | nil => simpa using h
  | cons c rest ih =>
    rw [List.dropWhile_cons]
    by_cases hp : p c = true
    · rw [if_pos hp]
      exact ih (hasPair_cons_false h)
    · rw [if_neg hp]
      exact h

theorem rstrip_head (l : List Char) :
    rstrip l = [] ∨ (rstrip l).head? = l.head? := by
  cases l with
  | nil => left; rfl
  | cons c rest =>
    rw [rstrip]
    cases rstrip rest with
    | nil =>
      by_cases hc : pyIsWs c = true
      · left; simp [hc]
      · right; simp [hc]
    | cons t ts => right; rfl

theorem hasPair_rstrip {a b : Char} {l : List Char}
    (h : hasPair a b l = false) : hasPair a b (rstrip l) = false := by
  induction l with
  | nil => simpa using h
  | cons c rest ih =>
    rw [rstrip]
    cases hr : rstrip rest with
    | nil =>
      by_cases hc : pyIsWs c = true
      · simp [hc, hasPair]
      · simp [hc, hasPair]
    | cons t ts =>
      rw [hasPair_cons]
      have hpr : hasPair a b (t :: ts) = false := by
        rw [← hr]
        exact ih (hasPair_cons_false h)
      rcases rstrip_head rest with hrh | hrh
      · rw [hr] at hrh; simp at hrh
      · rw [hr] at hrh
        rw [hasPair_cons] at h
        have h1 := (Bool.or_eq_false_iff.mp h).1
        rw [← hrh] at h1
        simp only [List.head?_cons] at h1
        simp only [List.head?_cons, Bool.or_eq_false_iff]
        exact ⟨h1, hpr⟩

theorem rstrip_idem (l : List Char) : rstrip (rstrip l) = rstrip l := by
  induction l with
  | nil => rfl
  | cons c rest ih =>
    rw [rstrip]
    cases hr : rstrip rest with
    | nil =>
      by_cases hc : pyIsWs c = true
      · simp [hc, rstrip]
      · simp only [hc, Bool.false_eq_true, if_false]
        rw [rstrip, rstrip]
        simp [hc]
    | cons t ts =>
      rw [rstrip, ← hr, ih, hr]

theorem mem_collapseSpaces {s : List Char} {c : Char}
    (h : c ∈ collapseSpaces s) : c ∈ s := by
  induction s using collapseSpaces.induct with
  | case1 => simp [collapseSpaces] at h
  | case2 d => simpa [collapseSpaces] using h
  | case3 d y rest hif ih =>
    rw [collapseSpaces_cons_skip hif.1 (by simp [hif.2])] at h
    exact List.mem_cons_of_mem d (ih h)
  | case4 d y rest hif ih =>
    rw [collapseSpaces_cons_keep (by
      intro hcon
      exact hif ⟨hcon.1, by simpa using hcon.2⟩)] at h
    rcases List.mem_cons.mp h with h2 | h2
    · rw [h2]; exact List.mem_cons_self d _
    · exact List.mem_cons_of_mem d (ih h2)

theorem mem_rstrip {l : List Char} {c : Char} (h : c ∈ rstrip l) : c ∈ l := by
  induction l with
  | nil => simp [rstrip] at h
  | cons d rest ih =>
    rw [rstrip] at h
    cases hr : rstrip rest with
    | nil =>
      rw [hr] at h
      by_cases hd : pyIsWs d = true
      · simp [hd] at h
      · simp only [hd, Bool.false_eq_true, if_false, List.mem_singleton] at h
        rw [h]; exact List.mem_cons_self d rest
    | cons t ts =>
      rw [hr] at h
      rcases List.mem_cons.mp h with h2 | h2
      · rw [h2]; exact List.mem_cons_self d rest
      · exact List.mem_cons_of_mem d (ih (hr ▸ h2))

theorem mem_pyStrip {l : List Char} {c : Char} (h : c ∈ pyStrip l) : c ∈ l :=
  (List.dropWhile_sublist pyIsWs).subset (mem_rstrip h)

theorem dropWhile_head_false {p : Char → Bool} {l : List Char} {c : Char}
    (h : (l.dropWhile p).head? = some c) : p c = false := by
  induction l with
  | nil => simp at h
  | cons d rest ih =>
    rw [List.dropWhile_cons] at h
    by_cases hd : p d = true
    · rw [if_pos hd] at h
      exact ih h
    · rw [if_neg hd] at h
      simp only [List.head?_cons, Option.some.injEq] at h
      rw [← h]
      simpa using hd

theorem dropWhile_of_head_false {p : Char → Bool} {l : List Char}
    (h : ∀ c, l.head? = some c → p c = false) : l.dropWhile p = l := by
  cases l with
  | nil => rfl
  | cons d rest =>
    rw [List.dropWhile_cons, if_neg (by simp [h d rfl])]

theorem pyStrip_idem (l : List Char) : pyStrip (pyStrip l) = pyStrip l := by
  unfold pyStrip
  cases hr : rstrip (l.dropWhile pyIsWs) with
  | nil => rfl
  | cons t ts =>
    have hhead : (t :: ts).head? = (l.dropWhile pyIsWs).head? := by
      rcases rstrip_head (l.dropWhile pyIsWs) with hh | hh
      · rw [hr] at hh; simp at hh
      · rw [← hr, hh]
    have hnws : pyIsWs t = false := by
      apply dropWhile_head_false (p := pyIsWs) (l := l)
      rw [← hhead]; rfl
    have hdw : (t :: ts).dropWhile pyIsWs = t :: ts := by
      rw [List.dropWhile_cons, if_neg (by simp [hnws])]
    rw [hdw, ← hr, rstrip_idem]

/-- `__clean_occup_vol` acts line by line: its output is the input's lines,
each space-collapsed and stripped, rejoined with newlines. -/
theorem cleanOccup_lines (s : List Char) :
    cleanOccup s =
      joinNL ((splitLines s).map (fun l => pyStrip (collapseSpaces l))) := by
  unfold cleanOccup
  rw [splitLines_collapse, List.map_map]
  rfl

/-- On any input whose cleaned final line is nonempty, `__clean_occup_vol`
is idempotent. -/
theorem cleanOccup_idem_of {s : List Char}
    (h : ((splitLines s).map (fun l => pyStrip (collapseSpaces l))).getLast?
      ≠ some []) :
    cleanOccup (cleanOccup s) = cleanOccup s := by
  rw [cleanOccup_lines s]
  rw [cleanOccup_lines (joinNL ((splitLines s).map
    (fun l => pyStrip (collapseSpaces l))))]
  have hterm : ∀ l ∈ (splitLines s).map (fun l => pyStrip (collapseSpaces l)),
      ∀ c ∈ l, isTerm c = false := by
    intro l hl c hc
    obtain ⟨l0, hl0, rfl⟩ := List.mem_map.mp hl
    exact splitLines_noTerm s l0 hl0 c (mem_collapseSpaces (mem_pyStrip hc))
  rw [splitLines_joinNL hterm h, List.map_map]
  congr 1
  apply List.map_congr_left
  intro l hl
  simp only [Function.comp_apply]
  have hdd : hasPair ' ' ' ' (pyStrip (collapseSpaces l)) = false := by
    unfold pyStrip
    exact hasPair_rstrip (hasPair_dropWhile pyIsWs (collapseSpaces_no_dd l))
  rw [collapseSpaces_fix hdd, pyStrip_idem]

theorem splitSp_ne_nil (l : List Char) : splitSp l ≠ [] := by
  induction l using splitSp.induct with
  | case1 => simp [splitSp]
  | case2 ts ih => simp [splitSp]
  | case3 t ts ht hnil ih => exact absurd hnil ih
  | case4 t ts ht l2 ls hls ih =>
    simp only [splitSp, if_neg ht, hls]
    simp

theorem joinSp_splitSp (l : List Char) : joinSp (splitSp l) = l := by
  induction l using splitSp.induct with
  | case1 => rfl
  | case2 ts ih =>
    have hstep : splitSp (' ' :: ts) = [] :: splitSp ts := by
      simp [splitSp]
    rw [hstep]
    cases hs : splitSp ts with
    | nil => exact absurd hs (splitSp_ne_nil ts)
    | cons t2 ts2 =>
      rw [joinSp]
      simp only [List.nil_append]
      rw [← hs, ih]
  | case3 t ts ht hnil ih => exact absurd hnil (splitSp_ne_nil ts)
  | case4 t ts ht l2 ls hls ih =>
    simp only [splitSp, if_neg ht, hls]
    rw [hls] at ih
    cases ls with
    | nil =>
      rw [joinSp] at ih ⊢
      rw [ih]
    | cons m ms =>
      rw [joinSp] at ih ⊢
      rw [List.cons_append, ih]

theorem branchLine_one {l : List Char} (h : (splitSp l).length = 1) :
    branchLine l = (l, false) := by
  cases hs : splitSp l with
  | nil => simp [hs] at h
  | cons a ts =>
    cases ts with
    | nil => simp [branchLine, hs]
    | cons b ts2 => simp [hs] at h

theorem branchLine_two {l : List Char} {a b : List Char}
    (h : splitSp l = [a, b]) : branchLine l = (l, false) := by
  have hl : l = a ++ ' ' :: b := by
    have := joinSp_splitSp l
    rw [h] at this
    rw [joinSp] at this
    rw [joinSp] at this
    exact this.symm
  simp only [branchLine, h]
  rw [hl]

theorem branchLine_three {l : List Char} {a b c : List Char}
    (h : splitSp l = [a, b, c]) :
    branchLine l = (a ++ '_' :: b ++ ' ' :: c, false) := by
  simp [branchLine, h]

theorem branchLine_big {l : List Char} (h : 4 ≤ (splitSp l).length) :
    branchLine l = (l, true) := by
  cases hs : splitSp l with
  | nil => simp [hs] at h
  | cons a ts =>
    cases ts with
    | nil => simp [hs] at h
    | cons b ts2 =>
      cases ts2 with
      | nil => simp [hs] at h
      | cons c ts3 =>
        cases ts3 with
        | nil => simp [hs] at h
        | cons d ts4 => simp [branchLine, hs]

theorem parseKV_short {l : List Char} (h : (splitSp l).length < 2) :
    parseKV l = none := by
  cases hs : splitSp l with
  | nil => simp [parseKV, hs]
  | cons a ts =>
    cases ts with
    | nil => simp [parseKV, hs]
    | cons b ts2 =>
      rw [hs] at h
      simp at h
      omega

/-- `replUnd` keeps the head character, except that a head space followed
by an underscore becomes an underscore. -/
theorem replUnd_head (s : List Char) :
    (replUnd s).head? = s.head? ∨
      (s.head? = some ' ' ∧ (replUnd s).head? = some '_') := by
  induction s using replUnd.induct with
  | case1 => left; rfl
  | case2 c => left; rfl
  | case3 c y rest h ih => right; rw [replUnd, if_pos h]; simp [h.1]
  | case4 c y rest h ih => left; rw [replUnd, if_neg h]; rfl

theorem replUnd_cons_keep {c : Char} {s : List Char}
    (h : ¬ (c = ' ' ∧ s.head? = some '_')) :
    replUnd (c :: s) = c :: replUnd s := by
  cases s with
  | nil => rfl
  | cons y t =>
    have hne : ¬ (c = ' ' ∧ y = '_') := by
      intro hcon
      exact h ⟨hcon.1, by simp [hcon.2]⟩
    simp [replUnd, hne]

theorem mem_replUnd {s : List Char} {c : Char} (h : c ∈ replUnd s) : c ∈ s := by
  induction s using replUnd.induct with
  | case1 => simpa [replUnd] using h
  | case2 d => simpa [replUnd] using h
  | case3 d y rest hif ih =>
    rw [replUnd, if_pos hif] at h
    rcases List.mem_cons.mp h with h2 | h2
    · rw [h2, hif.2]
      exact List.mem_cons_of_mem d (List.mem_cons_self _ _)
    · exact List.mem_cons_of_mem d (List.mem_cons_of_mem y (ih h2))
  | case4 d y rest hif ih =>
    rw [replUnd, if_neg hif] at h
    rcases List.mem_cons.mp h with h2 | h2
    · rw [h2]; exact List.mem_cons_self d _
    · exact List.mem_cons_of_mem d (ih h2)

/-- Underscore repair commutes with line splitting. -/
theorem linesT_replUnd (s : List Char) :
    linesT (replUnd s) = (linesT s).map replUnd := by
  induction s using replUnd.induct with
  | case1 => simp [linesT, replUnd]
  | case2 c =>
    by_cases hc : isTerm c = true
    · simp [linesT, replUnd, hc]
    · simp [linesT, replUnd, hc]
  | case3 c y rest hif ih =>
    obtain ⟨l, ls, hls⟩ : ∃ l ls, linesT rest = l :: ls := by
      cases hr : linesT rest with
      | nil => exact absurd hr (linesT_ne_nil _)
      | cons a b => exact ⟨a, b, rfl⟩
    have hrepl : linesT (replUnd rest) = replUnd l :: List.map replUnd ls := by
      rw [ih, hls, List.map_cons]
    rw [replUnd, if_pos hif, hif.1, hif.2]
    rw [linesT_cons_char (by simp [isTerm]) hrepl]
    rw [linesT_cons_char (by simp [isTerm])
      (linesT_cons_char (by simp [isTerm]) hls), List.map_cons]
    have : replUnd (' ' :: '_' :: l) = '_' :: replUnd l := by
      simp [replUnd]
    rw [this]
  | case4 c y rest hif ih =>
    have hkeep : replUnd (c :: y :: rest) = c :: replUnd (y :: rest) := by
      apply replUnd_cons_keep
      intro hcon
      exact hif ⟨hcon.1, by simpa using hcon.2⟩
    rw [hkeep]
    by_cases hcr : c = '\r' ∧ y = '\n'
    · obtain ⟨hc1, hc2⟩ := hcr
      subst hc1
      subst hc2
      have hyk : replUnd ('\n' :: rest) = '\n' :: replUnd rest := by
        apply replUnd_cons_keep
        intro hcon
        simp at hcon
      rw [hyk] at ih ⊢
      rw [linesT_crlf, linesT_crlf, List.map_cons]
      rw [linesT_cons_term (by simp [isTerm]) (by simp),
        linesT_cons_term (by simp [isTerm]) (by simp)] at ih
      simp only [List.map_cons, List.cons.injEq] at ih
      rw [ih.2]
      rfl
    · by_cases hc : isTerm c = true
      · have hl : linesT (c :: replUnd (y :: rest)) =
            [] :: linesT (replUnd (y :: rest)) := by
          apply linesT_cons_term hc
          intro hcon
          rcases replUnd_head (y :: rest) with hh | hh
          · rw [hh] at hcon
            exact hcr ⟨hcon.1, by simpa using hcon.2⟩
          · rw [hh.2] at hcon
            simp at hcon
        have hr : linesT (c :: y :: rest) = [] :: linesT (y :: rest) := by
          apply linesT_cons_term hc
          intro hcon
          exact hcr ⟨hcon.1, by simpa using hcon.2⟩
        rw [hl, hr, ih]
        rfl
      · obtain ⟨l, ls, hls⟩ : ∃ l ls, linesT (y :: rest) = l :: ls := by
          cases hr : linesT (y :: rest) with
          | nil => exact absurd hr (linesT_ne_nil _)
          | cons a b => exact ⟨a, b, rfl⟩
        have hcf : isTerm c = false := by simpa using hc
        have hrepl : linesT (replUnd (y :: rest)) =
            replUnd l :: List.map replUnd ls := by
          rw [ih, hls, List.map_cons]
        rw [linesT_cons_char hcf hrepl, linesT_cons_char hcf hls,
          List.map_cons]
        have : replUnd (c :: l) = c :: replUnd l := by
          apply replUnd_cons_keep
          intro hcon
          rw [linesT_first_head hls] at hcon
          by_cases hy : isTerm y = true
          · rw [if_pos hy] at hcon
            simp at hcon
          · rw [if_neg hy] at hcon
            have hyu : y = '_' := by simpa using hcon.2
            exact hif ⟨hcon.1, hyu⟩
        rw [this]

/-- Colon removal commutes with line splitting on carriage-return-free
text. -/
theorem linesT_remColon {s : List Char} (h : '\r' ∉ s) :
    linesT (remColon s) = (linesT s).map remColon := by
  induction s with
  | nil => simp [linesT, remColon]
  | cons c rest ih =>
    have hcr : ¬ c = '\r' := fun hcon => h (hcon ▸ List.mem_cons_self c rest)
    have hrest : '\r' ∉ rest := fun hcon => h (List.mem_cons_of_mem c hcon)
    have ihr := ih hrest
    obtain ⟨l, ls, hls⟩ : ∃ l ls, linesT rest = l :: ls := by
      cases hr : linesT rest with
      | nil => exact absurd hr (linesT_ne_nil _)
      | cons a b => exact ⟨a, b, rfl⟩
    by_cases hcc : c = ':'
    · have hstep : remColon (c :: rest) = remColon rest := by
        simp [remColon, List.filter_cons, hcc]
      rw [hstep, ihr, linesT_cons_char (by simp [isTerm, hcc]) hls, hls,
        List.map_cons, List.map_cons]
      have : remColon (c :: l) = remColon l := by
        simp [remColon, List.filter_cons, hcc]
      rw [this]
    · have hstep : remColon (c :: rest) = c :: remColon rest := by
        simp [remColon, List.filter_cons, hcc]
      rw [hstep]
      by_cases hnl : c = '\n'
      · rw [linesT_cons_term (by simp [isTerm, hnl]) (by simp [hnl, hcr]),
          linesT_cons_term (by simp [isTerm, hnl]) (by simp [hnl, hcr]), ihr,
          List.map_cons]
        rfl
      · have hcf : isTerm c = false := by simp [isTerm, hnl, hcr]
        have hrc : linesT (remColon rest) = remColon l :: List.map remColon ls := by
          rw [ihr, hls, List.map_cons]
        rw [linesT_cons_char hcf hrc, linesT_cons_char hcf hls, List.map_cons]
        have : remColon (c :: l) = c :: remColon l := by
          simp [remColon, List.filter_cons, hcc]
        rw [this]

/-- The global summary replacements preserve line structure on
carriage-return-free text: one output line per input line, each obtained
by the same character-level rewrites. -/
theorem linesT_summaryGlobal {s : List Char} (h : '\r' ∉ s) :
    linesT (summaryGlobal s) =
      (linesT s).map (fun l => collapseSpaces (remColon (replUnd l))) := by
  unfold summaryGlobal
  have hu : '\r' ∉ replUnd s := fun hcon => h (mem_replUnd hcon)
  rw [linesT_collapse, linesT_remColon hu, linesT_replUnd,
    List.map_map, List.map_map]
  rfl

theorem specEntriesG_shift (ls : List (List Char)) :
    ∀ i, specEntriesG (i + 1) ls = srcEntriesG i ls := by
  induction ls with
  | nil => intro i; rfl
  | cons l ls2 ih =>
    intro i
    have h56 : (i + 1 = 6) ↔ (i = 5) := by omega
    simp only [specEntriesG, srcEntriesG, h56, ih (i + 1)]

theorem specEntriesTN_shift (k : Nat) (ls : List (List Char)) :
    ∀ i, specEntriesTN (k + 3) (i + k) ls = srcEntriesTN i ls := by
  induction ls with
  | nil => intro i; rfl
  | cons l ls2 ih =>
    intro i
    have hk : (i + k = k + 3) ↔ (i = 3) := by omega
    have harith : i + k + 1 = (i + 1) + k := by omega
    simp only [specEntriesTN, srcEntriesTN, hk, harith, ih (i + 1)]

/-- The source parse and the spec's absolute-line-index schema agree on
every content. -/
theorem parseSummary_eq_spec (content : List Char) :
    parseSummary content = specParseSummary content := by
  unfold parseSummary specParseSummary
  cases h : splitLines content with
  | nil => rfl
  | cons name rest =>
    have h1 : specEntriesG 1 (rest.take 6) = srcEntriesG 0 (rest.take 6) :=
      specEntriesG_shift (rest.take 6) 0
    have h2 : specEntriesTN 11 8 (((name :: rest).drop 8).take 11) =
        srcEntriesTN 0 (((name :: rest).drop 8).take 11) := by
      have := specEntriesTN_shift 8 (((name :: rest).drop 8).take 11) 0
      simpa using this
    have h3 : specEntriesTN 23 20 ((name :: rest).drop 20) =
        srcEntriesTN 0 ((name :: rest).drop 20) := by
      have := specEntriesTN_shift 20 ((name :: rest).drop 20) 0
      simpa using this
    simp only [h1, h2, h3]

theorem fullJoin_left_key {cum der : List (ℚ × ℚ)} {p : ℚ × ℚ}
    (hp : p ∈ cum) : ∃ r ∈ fullJoin cum der, r.d = p.1 := by
  by_cases hms : (der.filter (fun q => q.1 == p.1)).isEmpty
  · refine ⟨⟨p.1, some p.2, none⟩, ?_, rfl⟩
    apply List.mem_append_left
    apply List.mem_flatMap.mpr
    exact ⟨p, hp, by rw [if_pos hms]; exact List.mem_singleton_self _⟩
  · obtain ⟨q, hq⟩ : ∃ q, q ∈ der.filter (fun q => q.1 == p.1) :=
      List.exists_mem_of_ne_nil _ (fun hnil => hms (by rw [hnil]; rfl))
    refine ⟨⟨p.1, some p.2, some q.2⟩, ?_, rfl⟩
    apply List.mem_append_left
    apply List.mem_flatMap.mpr
    refine ⟨p, hp, ?_⟩
    rw [if_neg hms]
    exact List.mem_map.mpr ⟨q, hq, rfl⟩

/-- The join key set of the full outer join is exactly the union of the
key sets of the two sides. -/
theorem fullJoin_keys (cum der : List (ℚ × ℚ)) (x : ℚ) :
    (∃ r ∈ fullJoin cum der, r.d = x) ↔
      (∃ p ∈ cum, p.1 = x) ∨ (∃ q ∈ der, q.1 = x) := by
  constructor
  · rintro ⟨r, hr, rfl⟩
    rcases List.mem_append.mp hr with h | h
    · obtain ⟨p, hp, hin⟩ := List.mem_flatMap.mp h
      by_cases hms : (der.filter (fun q => q.1 == p.1)).isEmpty
      · rw [if_pos hms] at hin
        simp only [List.mem_singleton] at hin
        left
        exact ⟨p, hp, by rw [hin]⟩
      · rw [if_neg hms] at hin
        obtain ⟨q, hq, hrq⟩ := List.mem_map.mp hin
        left
        exact ⟨p, hp, by rw [← hrq]⟩
    · obtain ⟨q, hq, hrq⟩ := List.mem_map.mp h
      right
      exact ⟨q, (List.mem_filter.mp hq).1, by rw [← hrq]⟩
  · rintro (⟨p, hp, rfl⟩ | ⟨q, hq, rfl⟩)
    · exact fullJoin_left_key hp
    · by_cases hc : cum.any (fun p => p.1 == q.1)
      · obtain ⟨p, hp, hpq⟩ := List.any_eq_true.mp hc
        have hpx : p.1 = q.1 := by simpa using hpq
        rw [← hpx]
        exact fullJoin_left_key hp
      · refine ⟨⟨q.1, none, some q.2⟩, ?_, rfl⟩
        apply List.mem_append_right
        apply List.mem_map.mpr
        refine ⟨q, List.mem_filter.mpr ⟨hq, ?_⟩, rfl⟩
        simp only [Bool.not_eq_true'] at hc ⊢
        simp [hc]

/-- A row unmatched on one side carries `none` in that side's value
column. -/
theorem fullJoin_nulls (cum der : List (ℚ × ℚ)) :
    ∀ r ∈ fullJoin cum der,
      ((∀ q ∈ der, q.1 ≠ r.d) → r.deriv = none) ∧
      ((∀ p ∈ cum, p.1 ≠ r.d) → r.volFrac = none) := by
  intro r hr
  rcases List.mem_append.mp hr with h | h
  · obtain ⟨p, hp, hin⟩ := List.mem_flatMap.mp h
    by_cases hms : (der.filter (fun q => q.1 == p.1)).isEmpty
    · rw [if_pos hms] at hin
      simp only [List.mem_singleton] at hin
      constructor
      · intro _; rw [hin]
      · intro hnone
        exact absurd rfl (hin ▸ hnone p hp)
    · rw [if_neg hms] at hin
      obtain ⟨q, hq, hrq⟩ := List.mem_map.mp hin
      have hqd : q.1 = r.d := by
        have := (List.mem_filter.mp hq).2
        rw [← hrq]
        simpa using this
      constructor
      · intro hder
        exact absurd hqd (hder q (List.mem_filter.mp hq).1)
      · intro hnone
        exact absurd rfl (hrq ▸ hnone p hp)
  · obtain ⟨q, hq, hrq⟩ := List.mem_map.mp h
    constructor
    · intro hder
      exact absurd rfl (hrq ▸ hder q (List.mem_filter.mp hq).1)
    · intro _
      rw [← hrq]

/-- C1: Summary parsing follows the fixed line-index schema: line 0 is the
input file name verbatim; lines 1-6 form `general_output` with the second
token parsed as a float except the line at local index 5 (absolute line 6)
whose value is an integer; lines 8-18 form `total_output` with float
values, skipping local index 3 (absolute line 11); lines from 20 on form
`network_accessible_output`, skipping local index 3 (absolute line 23). -/
theorem claim_C1_summary_schema (content : List Char) :
    parseSummary content = specParseSummary content :=
  parseSummary_eq_spec content

/-- C2: PSD parsing reads the cumulative table with 3 lines skipped and the
non-cumulative table with 1 line skipped, full-outer-joins them on `d` with
the key coalesced: the result's key set is exactly the union of both sides'
keys, and a row whose `d` is missing on one side has a null in that side's
value column. -/
theorem claim_C2_psd_full_join (c1 c2 : List Char) (cum der : List (ℚ × ℚ))
    (h1 : readTab 3 c1 = some cum) (h2 : readTab 1 c2 = some der) :
    parsePsds c1 c2 = some (fullJoin cum der) ∧
      (∀ x : ℚ, (∃ r ∈ fullJoin cum der, r.d = x) ↔
        (∃ p ∈ cum, p.1 = x) ∨ (∃ q ∈ der, q.1 = x)) ∧
      (∀ r ∈ fullJoin cum der,
        ((∀ q ∈ der, q.1 ≠ r.d) → r.deriv = none) ∧
        ((∀ p ∈ cum, p.1 ≠ r.d) → r.volFrac = none)) := by
  refine ⟨?_, fullJoin_keys cum der, fullJoin_nulls cum der⟩
  unfold parsePsds
  rw [h1, h2]
  rfl

theorem claim_C2_psd_full_join_witness :
    readTab 3 ("h1\nh2\nh3\n1.0 0.5\n2.0 0.8".toList) =
        some [((1 : ℚ), (1 : ℚ)/2), ((2 : ℚ), (4 : ℚ)/5)] ∧
    readTab 1 ("h1\n1.0 0.1\n3.0 0.2".toList) =
        some [((1 : ℚ), (1 : ℚ)/10), ((3 : ℚ), (1 : ℚ)/5)] ∧
    (parsePsds ("h1\nh2\nh3\n1.0 0.5\n2.0 0.8".toList)
        ("h1\n1.0 0.1\n3.0 0.2".toList) =
      some (fullJoin [((1 : ℚ), (1 : ℚ)/2), ((2 : ℚ), (4 : ℚ)/5)]
        [((1 : ℚ), (1 : ℚ)/10), ((3 : ℚ), (1 : ℚ)/5)]) ∧
      (∀ x : ℚ, (∃ r ∈ fullJoin [((1 : ℚ), (1 : ℚ)/2), ((2 : ℚ), (4 : ℚ)/5)]
          [((1 : ℚ), (1 : ℚ)/10), ((3 : ℚ), (1 : ℚ)/5)], r.d = x) ↔
        (∃ p ∈ [((1 : ℚ), (1 : ℚ)/2), ((2 : ℚ), (4 : ℚ)/5)], p.1 = x) ∨
        (∃ q ∈ [((1 : ℚ), (1 : ℚ)/10), ((3 : ℚ), (1 : ℚ)/5)], q.1 = x)) ∧
      (∀ r ∈ fullJoin [((1 : ℚ), (1 : ℚ)/2), ((2 : ℚ), (4 : ℚ)/5)]
          [((1 : ℚ), (1 : ℚ)/10), ((3 : ℚ), (1 : ℚ)/5)],
        ((∀ q ∈ [((1 : ℚ), (1 : ℚ)/10), ((3 : ℚ), (1 : ℚ)/5)], q.1 ≠ r.d) →
          r.deriv = none) ∧
        ((∀ p ∈ [((1 : ℚ), (1 : ℚ)/2), ((2 : ℚ), (4 : ℚ)/5)], p.1 ≠ r.d) →
          r.volFrac = none))) :=
  ⟨by decide, by decide,
    claim_C2_psd_full_join _ _ _ _ (by decide) (by decide)⟩

/-- C3: Construction never raises because of absent optional files: the
empty directory yields the freshly initialized result, a directory with
only one of the two PSD files parses nothing (PSD needs both), and a
directory with only the occupied-volume file yields its parsed (cleaned)
table together with empty PSD, empty summary and empty input file name. -/
theorem claim_C3_absent_files :
    (∀ b, construct emptyDir b = (some emptyResult, emptyDir)) ∧
    (∀ c b, (construct (Dir.mk (some c) none none none none none none none) b).1 =
      some emptyResult) ∧
    (∀ c b, (construct (Dir.mk none (some c) none none none none none none) b).1 =
      some emptyResult) ∧
    (∀ c rows, readOccup (cleanOccup c) = some rows →
      construct (Dir.mk none none none (some c) none none none none) true =
        (some (RunResult.mk [] rows none []),
          Dir.mk none none none (some (cleanOccup c)) none none none none)) := by
  refine ⟨?_, ?_, ?_, ?_⟩
  · intro b; cases b <;> rfl
  · intro c b; cases b <;> rfl
  · intro c b; cases b <;> rfl
  · intro c rows h
    simp only [construct, cleanPhase, parsePhase, Option.map_none', Option.map_some',
      if_true]
    rw [h]
    rfl

theorem claim_C3_absent_files_witness :
    readOccup (cleanOccup ("l1\nl2\nNa 1.0 2.0 3.0".toList)) =
        some [OccupRow.mk ("Na".toList) 1 2 3] ∧
    construct (Dir.mk none none none (some ("l1\nl2\nNa 1.0 2.0 3.0".toList))
        none none none none) true =
      (some (RunResult.mk [] [OccupRow.mk ("Na".toList) 1 2 3] none []),
        Dir.mk none none none
          (some (cleanOccup ("l1\nl2\nNa 1.0 2.0 3.0".toList)))
          none none none none) :=
  ⟨by decide, claim_C3_absent_files.2.2.2 _ _ (by decide)⟩

/-- C4 (amended): after the global replacements and per-line trimming, a
2-token line is reproduced unchanged, a 3-token line `a b c` becomes
`a_b c`, a 1-token line is passed through unchanged WITHOUT logging, and a
line with 4 or more tokens is logged as an error and passed through
unmodified; none of these aborts the cleaning. -/
theorem claim_C4_line_branches (l : List Char) :
    ((splitSp l).length = 2 → branchLine l = (l, false)) ∧
    (∀ a b c, splitSp l = [a, b, c] →
      branchLine l = (a ++ '_' :: b ++ ' ' :: c, false)) ∧
    ((splitSp l).length = 1 → branchLine l = (l, false)) ∧
    (4 ≤ (splitSp l).length → branchLine l = (l, true)) := by
  refine ⟨fun h => ?_, fun a b c h => branchLine_three h,
    fun h => branchLine_one h, fun h => branchLine_big h⟩
  obtain ⟨a, b, hs⟩ : ∃ a b, splitSp l = [a, b] := by
    cases hs : splitSp l with
    | nil => rw [hs] at h; simp at h
    | cons a ts =>
      cases ts with
      | nil => rw [hs] at h; simp at h
      | cons b ts2 =>
        cases ts2 with
        | nil => exact ⟨a, b, rfl⟩
        | cons c ts3 => rw [hs] at h; simp at h
  exact branchLine_two hs

theorem claim_C4_counterexample :
    (splitSp ([] : List Char)).length = 1 ∧
      (splitSp ([] : List Char)).length ≠ 2 ∧
      (splitSp ([] : List Char)).length ≠ 3 ∧
      branchLine ([] : List Char) = ([], false) := by decide

theorem claim_C4_witness :
    (splitSp ("ab cd".toList)).length = 2 ∧
      branchLine ("ab cd".toList) = ("ab cd".toList, false) :=
  ⟨by decide, (claim_C4_line_branches _).1 (by decide)⟩

/-- C5 (amended): the PSD whitespace-cleaning rewrite is idempotent on
every content; the occupied-volume rewrite is idempotent on every content
whose list of cleaned lines does not end with an empty line (a trailing
empty cleaned line is dropped again by a second run). -/
theorem claim_C5_idempotence :
    (∀ s, cleanPsds (cleanPsds s) = cleanPsds s) ∧
    (∀ s, ((splitLines s).map (fun l => pyStrip (collapseSpaces l))).getLast?
        ≠ some [] →
      cleanOccup (cleanOccup s) = cleanOccup s) :=
  ⟨cleanPsds_idem, fun _ h => cleanOccup_idem_of h⟩

theorem claim_C5_counterexample :
    cleanOccup (cleanOccup ("a\n\n".toList)) ≠ cleanOccup ("a\n\n".toList) := by
  decide

theorem claim_C5_witness :
    ((splitLines ("a b".toList)).map
        (fun l => pyStrip (collapseSpaces l))).getLast? ≠ some [] ∧
      cleanOccup (cleanOccup ("a b".toList)) = cleanOccup ("a b".toList) :=
  ⟨by decide, claim_C5_idempotence.2 _ (by decide)⟩

/-- C6: when the summary content contains a comma, the cleaning step
returns the content unchanged (no rewrite). -/
theorem claim_C6_comma_guard (s : List Char) (h : hasComma s = true) :
    cleanSummary s = s := by
  rw [cleanSummary, if_pos h]

theorem claim_C6_comma_guard_witness :
    hasComma ("a,b".toList) = true ∧
      cleanSummary ("a,b".toList) = "a,b".toList :=
  ⟨by decide, claim_C6_comma_guard _ (by decide)⟩

/-- C7 (amended): a summary line with fewer than two space-separated
tokens is passed through by cleaning unmodified and WITHOUT logging (it
falls into the silent 1-token branch), and the subsequent two-token parse
of that same line fails (the parser never re-validates token count). -/
theorem claim_C7_short_line (l : List Char)
    (h : (splitSp (pyStrip l)).length < 2) :
    branchLine (pyStrip l) = (pyStrip l, false) ∧
      parseKV ((branchLine (pyStrip l)).1) = none := by
  have hpos : 0 < (splitSp (pyStrip l)).length :=
    List.length_pos.mpr (splitSp_ne_nil (pyStrip l))
  have h1 : (splitSp (pyStrip l)).length = 1 := by omega
  have hb := branchLine_one h1
  refine ⟨hb, ?_⟩
  rw [hb]
  show parseKV (pyStrip l) = none
  exact parseKV_short (by omega)

theorem claim_C7_counterexample :
    (splitSp (pyStrip ("abc".toList))).length < 2 ∧
      (branchLine (pyStrip ("abc".toList))).2 = false ∧
      parseKV (pyStrip ("abc".toList)) = none := by decide

theorem claim_C7_witness :
    (splitSp (pyStrip ("x".toList))).length < 2 ∧
      (branchLine (pyStrip ("x".toList)) = (pyStrip ("x".toList), false) ∧
        parseKV ((branchLine (pyStrip ("x".toList))).1) = none) :=
  ⟨by decide, claim_C7_short_line _ (by decide)⟩

/-- C8: constructing with clean set to false performs no on-disk change
(all file contents after construction equal the input directory), and
parsing runs against the raw contents. -/
theorem claim_C8_no_clean_no_write (d : Dir) :
    construct d false = (parsePhase d, d) := rfl

/-- C9: occupied-volume cleaning is exactly per-line whitespace
normalization: its output is the input's lines, each with space runs
collapsed and edges stripped, rejoined with newlines, and nothing else. -/
theorem claim_C9_occup_normalization (s : List Char) :
    cleanOccup s =
      joinNL ((splitLines s).map (fun l => pyStrip (collapseSpaces l))) :=
  cleanOccup_lines s

/-- C10 (amended): on comma-free, carriage-return-free summary content the
global replacements preserve the number and order of physical lines (one
transformed line per input line), the written output is the newline-join
of one cleaned line per line of the transformed text, and a line that is
empty after trimming is preserved as an empty line; the final splitlines
count of the written output can still shrink when trailing lines become
empty. -/
theorem claim_C10_summary_line_structure (s : List Char)
    (h1 : hasComma s = false) (h2 : '\r' ∉ s) :
    linesT (summaryGlobal s) =
        (linesT s).map (fun l => collapseSpaces (remColon (replUnd l))) ∧
      cleanSummary s =
        joinNL ((splitLines (summaryGlobal s)).map cleanSummaryLine) ∧
      (∀ l, pyStrip l = [] → cleanSummaryLine l = []) := by
  refine ⟨linesT_summaryGlobal h2, ?_, ?_⟩
  · rw [cleanSummary, if_neg (by simp [h1])]
  · intro l hl
    unfold cleanSummaryLine
    rw [hl]
    rfl

theorem claim_C10_counterexample :
    hasComma ("a\n:\n:".toList) = false ∧
      (splitLines ("a\n:\n:".toList)).length = 3 ∧
      cleanSummary ("a\n:\n:".toList) = "a\n".toList ∧
      (splitLines (cleanSummary ("a\n:\n:".toList))).length = 1 := by decide

theorem claim_C10_witness :
    hasComma ("a 1\nb 2".toList) = false ∧ '\r' ∉ "a 1\nb 2".toList ∧
      (linesT (summaryGlobal ("a 1\nb 2".toList)) =
          (linesT ("a 1\nb 2".toList)).map
            (fun l => collapseSpaces (remColon (replUnd l))) ∧
        cleanSummary ("a 1\nb 2".toList) =
          joinNL ((splitLines (summaryGlobal ("a 1\nb 2".toList))).map
            cleanSummaryLine) ∧
        (∀ l, pyStrip l = [] → cleanSummaryLine l = [])) :=
  ⟨by decide, by decide,
    claim_C10_summary_line_structure _ (by decide) (by decide)⟩

end PB
